import Mathlib

/-!
Verification of the ImageNet-txt codec
(`src/datumaro/plugins/imagenet_txt_format.py`).

Strings are modelled as `List Char`.  Python `str` operations used by the
source (`str.split(sep)`, `str.split()`, `str.strip()`, `int(...)`,
`os.path.splitext`, `os.path.join`, text-mode line iteration with
universal-newline translation) are embedded below.  Python's `int` accepts
a few extra shapes (underscore digit grouping, surrounding whitespace,
non-ASCII digits) that cannot arise from the whitespace-split tokens fed to
it here, so the embedding covers optional sign plus ASCII digits.
`str.split()`/`str.strip()` whitespace is modelled by the six ASCII
whitespace characters.
-/

deriving instance DecidableEq for Except

namespace ImagenetTxt

/-- The six ASCII whitespace characters recognised by Python's
`str.split()` / `str.strip()`. -/
def pyIsSpace (c : Char) : Bool :=
  c = ' ' || c = '\t' || c = '\n' || c = '\r' || c = '\x0b' || c = '\x0c'

/-- Split a character list at every character satisfying `p`, keeping empty
pieces — the behaviour of Python's `str.split(sep)` (piece count = separator
count + 1). -/
def splitP (p : Char → Bool) : List Char → List (List Char)
  | [] => [[]]
  | c :: cs =>
    if p c then [] :: splitP p cs
    else
      match splitP p cs with
      | [] => [[c]]
      | piece :: rest => (c :: piece) :: rest

/-- Python `line.split('"')`. -/
def splitQuote (l : List Char) : List (List Char) :=
  splitP (fun c => c = '"') l

/-- Python `s.split()` (no argument): split on whitespace runs, dropping
empty pieces. -/
def wsTokens (l : List Char) : List (List Char) :=
  (splitP pyIsSpace l).filter (fun t => t ≠ [])

/-- Universal-newline translation applied by Python when reading a file in
text mode: `\r\n` and lone `\r` both become `\n`. -/
def translateNewlines : List Char → List Char
  | [] => []
  | [c] => [if c = '\r' then '\n' else c]
  | c :: d :: rest =>
    if c = '\r' then
      if d = '\n' then '\n' :: translateNewlines rest
      else '\n' :: translateNewlines (d :: rest)
    else c :: translateNewlines (d :: rest)

/-- Iterating a text file line by line (Python `for line in f`): each
yielded line keeps its trailing `'\n'`; a final unterminated chunk is
yielded without one; a trailing terminator produces no extra empty line. -/
def pyLines (text : List Char) : List (List Char) :=
  let pieces := splitP (fun c => c = '\n') text
  let body := pieces.dropLast.map (fun s => s ++ ['\n'])
  if pieces.getLast? = some [] then body
  else body ++ [pieces.getLastD []]

/-- Reading a text file as a list of lines: universal-newline translation
followed by line iteration. -/
def readLines (text : List Char) : List (List Char) :=
  pyLines (translateNewlines text)

/-- Index of the last occurrence of `c` in `l`, if any
(Python `str.rfind`). -/
def lastIndexOf (c : Char) (l : List Char) : Option Nat :=
  match (l.reverse).findIdx? (fun d => d = c) with
  | none => none
  | some j => some (l.length - 1 - j)

/-- `os.path.splitext` on POSIX (`genericpath._splitext` with separator
`'/'` and extension separator `'.'`): split at the last `'.'` provided it
lies after the last `'/'` and at least one character strictly between the
last `'/'` and that dot is not itself a `'.'`; otherwise the extension is
empty. -/
def splitext (l : List Char) : List Char × List Char :=
  match lastIndexOf '.' l with
  | none => (l, [])
  | some dotIdx =>
    let nameStart : Nat :=
      match lastIndexOf '/' l with
      | none => 0
      | some sepIdx => sepIdx + 1
    if nameStart ≤ dotIdx ∧
        ((List.range' nameStart (dotIdx - nameStart)).any
          (fun i => l.getD i ' ' ≠ '.')) then
      (l.take dotIdx, l.drop dotIdx)
    else (l, [])

/-- `posixpath.join` restricted to two components, as used by the decoder
(`osp.join(self.image_dir, image)`). -/
def ospJoin (a b : List Char) : List Char :=
  if b.head? = some '/' then b
  else if a = [] then b
  else if a.getLast? = some '/' then a ++ b
  else a ++ '/' :: b

/-- Python `str.strip()` with no argument: drop leading and trailing
whitespace. -/
def pyStrip (l : List Char) : List Char :=
  ((l.dropWhile pyIsSpace).reverse.dropWhile pyIsSpace).reverse

/-- Parse a nonempty all-ASCII-digit character list as a natural number. -/
def parseDigits (l : List Char) : Option Nat :=
  if l ≠ [] ∧ l.all Char.isDigit then
    some (l.foldl (fun a c => 10 * a + (c.toNat - 48)) 0)
  else none

/-- Python `int(token)` on a token produced by `str.split()` (hence free of
surrounding whitespace): optional sign followed by decimal digits. -/
def pyInt (t : List Char) : Option Int :=
  match t with
  | [] => none
  | c :: rest =>
    if c = '+' then (parseDigits rest).map Int.ofNat
    else if c = '-' then (parseDigits rest).map (fun n => -(n : Int))
    else (parseDigits (c :: rest)).map Int.ofNat

/-- Decimal digits of a natural number, most significant first, with a
structural fuel so the kernel can evaluate it. -/
def natToCharsF : Nat → Nat → List Char
  | 0, _ => []
  | fuel + 1, n =>
    if n < 10 then [Char.ofNat (48 + n)]
    else natToCharsF fuel (n / 10) ++ [Char.ofNat (48 + n % 10)]

/-- Decimal digits of a natural number, most significant first. -/
def natToChars (n : Nat) : List Char :=
  natToCharsF (n + 1) n

/-- Python `str(i)` for an integer. -/
def intToChars (i : Int) : List Char :=
  match i with
  | Int.ofNat n => natToChars n
  | Int.negSucc n => '-' :: natToChars (n + 1)

/-- Remove the elements of `seen` and later duplicates, keeping the first
occurrence of each remaining element. -/
def dedupFirstAux {α : Type} [DecidableEq α] (seen : List α) :
    List α → List α
  | [] => []
  | x :: xs =>
    if x ∈ seen then dedupFirstAux seen xs
    else x :: dedupFirstAux (x :: seen) xs

/-- Remove duplicates keeping the first occurrence of each element. -/
def dedupFirst {α : Type} [DecidableEq α] (l : List α) : List α :=
  dedupFirstAux [] l

/-- Insertion into an insertion-ordered dictionary (Python `dict`):
assigning to an existing key replaces its value in place, a new key is
appended at the end. -/
def insertOrdered {α : Type} (m : List (List Char × α)) (k : List Char)
    (v : α) : List (List Char × α) :=
  if m.any (fun p => p.1 = k) then
    m.map (fun p => if p.1 = k then (k, v) else p)
  else m ++ [(k, v)]

/-- Value stored under key `k` in an association list, if any. -/
def lookupOrd {α : Type} (k : List Char) :
    List (List Char × α) → Option α
  | [] => none
  | p :: ps => if p.1 = k then some p.2 else lookupOrd k ps

/-- The failures `ImagenetTxtExtractor._load_items` can raise while
decoding one annotation file: the explicit "unexpected number of quotes"
`Exception`, the label-range `AssertionError`, the `ValueError` from
`int(...)` on a non-integer token, and the `IndexError` from `item[0]` on
an empty token list. -/
inductive DecodeError where
  | malformedLine (line : List Char)
  | invalidLabelId (itemId : List Char) (labelId : Int)
  | malformedInteger (token : List Char)
  | indexError
deriving DecidableEq

/-- The data `_load_items` stores per item: `DatasetItem(id=item_id,
image=osp.join(self.image_dir, image), annotations=anno)` with `anno` the
decoded label ids in order (the constant subset field is omitted). -/
structure ItemRec where
  id : List Char
  image : List Char
  labels : List Int
deriving DecidableEq

/-- `[int(id) for id in item[1:]]`: parse every token as an integer,
failing at the first non-integer token. -/
def traverseInt : List (List Char) → Except DecodeError (List Int)
  | [] => Except.ok []
  | t :: ts =>
    match pyInt t with
    | none => Except.error (DecodeError.malformedInteger t)
    | some v =>
      match traverseInt ts with
      | Except.error e => Except.error e
      | Except.ok vs => Except.ok (v :: vs)

/-- The per-label `assert 0 <= label < len(categories)` loop of
`_load_items`, failing at the first out-of-range label id. -/
def checkLabels (n : Nat) (itemId : List Char) :
    List Int → Except DecodeError Unit
  | [] => Except.ok ()
  | l :: ls =>
    if 0 ≤ l ∧ l < (n : Int) then checkLabels n itemId ls
    else Except.error (DecodeError.invalidLabelId itemId l)

/-- The 3-piece branch of `_load_items` (lines 58-61 of the source):
`item_id = item[1]; item = item[2].split(); image = item_id + item[0];
label_ids = [int(id) for id in item[1:]]`.  `item[0]` on an empty token
list raises `IndexError`. -/
def decodeQuoted (itemId p2 : List Char) :
    Except DecodeError (List Char × List Char × List Int) :=
  match wsTokens p2 with
  | [] => Except.error DecodeError.indexError
  | t0 :: rest =>
    match traverseInt rest with
    | Except.error e => Except.error e
    | Except.ok ls => Except.ok (itemId, itemId ++ t0, ls)

/-- The 1-piece branch of `_load_items` (lines 66-69 of the source):
`item = line.split(); item_id = osp.splitext(item[0])[0]; image = item[0];
label_ids = [int(id) for id in item[1:]]`. -/
def decodeUnquoted (line : List Char) :
    Except DecodeError (List Char × List Char × List Int) :=
  match wsTokens line with
  | [] => Except.error DecodeError.indexError
  | t0 :: rest =>
    match traverseInt rest with
    | Except.error e => Except.error e
    | Except.ok ls => Except.ok ((splitext t0).1, t0, ls)

/-- The quote-count dispatch of `_load_items` (lines 54-69 of the source)
applied to one line, before the label-range asserts: split on `'"'`; with
exactly 3 pieces decode as a quoted filename, with 2 or more than 3
pieces raise the "unexpected number of quotes" error, and with a single
piece decode as an unquoted filename. -/
def decodeRaw (line : List Char) :
    Except DecodeError (List Char × List Char × List Int) :=
  let pieces := splitQuote line
  if 1 < pieces.length then
    if pieces.length = 3 then
      decodeQuoted (pieces.getD 1 []) (pieces.getD 2 [])
    else Except.error (DecodeError.malformedLine line)
  else decodeUnquoted line

/-- Decoding one line against a label catalog of size `n`: the quote-count
dispatch followed by the label-range asserts. -/
def decodeLine (n : Nat) (line : List Char) :
    Except DecodeError (List Char × List Char × List Int) :=
  match decodeRaw line with
  | Except.error e => Except.error e
  | Except.ok r =>
    match checkLabels n r.1 r.2.2 with
    | Except.error e => Except.error e
    | Except.ok _ => Except.ok r

/-- The line-folding loop of `_load_items` starting from accumulated
items `acc`: decode each line and assign `items[item_id] = DatasetItem(
id=item_id, image=osp.join(self.image_dir, image), annotations=anno)`. -/
def loadItemsFrom (n : Nat) (imageDir : List Char)
    (acc : List (List Char × ItemRec)) :
    List (List Char) → Except DecodeError (List (List Char × ItemRec))
  | [] => Except.ok acc
  | line :: rest =>
    match decodeLine n line with
    | Except.error e => Except.error e
    | Except.ok (id, img, ls) =>
        loadItemsFrom n imageDir
          (insertOrdered acc id ⟨id, ospJoin imageDir img, ls⟩) rest

/-- `_load_items` on a list of already-read lines. -/
def loadItems (n : Nat) (imageDir : List Char)
    (lines : List (List Char)) :
    Except DecodeError (List (List Char × ItemRec)) :=
  loadItemsFrom n imageDir [] lines

/-- `_load_items` on the raw text of an annotation file, read in text
mode. -/
def decodeFile (n : Nat) (imageDir : List Char) (text : List Char) :
    Except DecodeError (List (List Char × ItemRec)) :=
  loadItems n imageDir (readLines text)

/-- Modelled from the spec: the input of `ImagenetTxtConverter.apply` for
one item of a subset.  The surrounding dataset classes (`DatasetItem`,
`Converter`, `Converter._find_image_ext`) are not under `src/`; per §4.3
the encoder receives an item id, an externally resolved image extension
(the item's actual extension, or the configured default such as `.jpg`
when no image data is attached), and the item's label ids in order. -/
structure EncItem where
  id : List Char
  ext : List Char
  labels : List Int

/-- Modelled from the spec: the iteration order of the Python `set` built
at line 120 of the source is unspecified by Python; §3 and §4.3 of the
spec fix it as insertion order of first occurrence. -/
def pySetList (ls : List Int) : List Int :=
  dedupFirst ls

/-- The filename-token construction of `ImagenetTxtConverter.apply`
(lines 116-119): wrap the id in double quotes when `1 <
len(item_id.split())`, then append the resolved extension directly. -/
def encodeToken (id ext : List Char) : List Char :=
  (if 1 < (wsTokens id).length then '"' :: id ++ ['"'] else id) ++ ext

/-- Python `' '.join(strs)`: the pieces separated by single spaces. -/
def joinSep : List (List Char) → List Char
  | [] => []
  | [s] => s
  | s :: rest => s ++ ' ' :: joinSep rest

/-- One emitted annotation line (line 128 of the source):
`'%s %s\n' % (item_id, ' '.join(str(l) for l in item_labels))`. -/
def emitLine (tok : List Char) (lbls : List Int) : List Char :=
  tok ++ ' ' :: joinSep (lbls.map intToChars) ++ ['\n']

/-- The annotation-file body produced by `ImagenetTxtConverter.apply` for
one subset: build the token-keyed dict of label sets, then concatenate one
line per entry. -/
def encodeItems (items : List EncItem) : List Char :=
  let m := items.foldl
    (fun m it => insertOrdered m (encodeToken it.id it.ext)
      (pySetList it.labels))
    ([] : List (List Char × List Int))
  m.foldl (fun acc p => acc ++ emitLine p.1 p.2) []

/-- The label-catalog body written by `ImagenetTxtConverter.apply`
(lines 135-139): each label name followed by `'\n'`, in catalog order. -/
def storeLabels (names : List (List Char)) : List Char :=
  names.foldl (fun acc nm => acc ++ nm ++ ['\n']) []

/-- `ImagenetTxtExtractor._parse_labels`: read the catalog file in text
mode and strip each line. -/
def parseLabels (text : List Char) : List (List Char) :=
  (readLines text).map pyStrip

/-- Folding every pair of a list into an insertion-ordered dictionary. -/
def fromPairs {α : Type} (ps : List (List Char × α)) :
    List (List Char × α) :=
  ps.foldl (fun m p => insertOrdered m p.1 p.2) []

/-- The value paired with the last occurrence of key `k` in a list of
pairs, if any. -/
def lastVal {α : Type} (k : List Char) (ps : List (List Char × α)) :
    Option α :=
  ((ps.filter (fun p => p.1 = k)).getLast?).map Prod.snd

/-- Modelled from the spec: the claim's reading of "the filename with its
final extension (last '.' segment) stripped" — drop everything from the
last '.' on, unconditionally, leaving names without a '.' unchanged. -/
def stripLastDotSegment (l : List Char) : List Char :=
  match lastIndexOf '.' l with
  | none => l
  | some d => l.take d

/-- The one annotation line the encoder emits for an item whose token is
fresh in the per-subset dict. -/
def lineFor (it : EncItem) : List Char :=
  emitLine (encodeToken it.id it.ext) (pySetList it.labels)

/-- The body of an emitted annotation line, without the terminating
newline. -/
def bodyFor (it : EncItem) : List Char :=
  encodeToken it.id it.ext ++
    ' ' :: joinSep ((pySetList it.labels).map intToChars)

/-- Conditions on one encoder input under which its emitted line decodes
back to it exactly: the id contains no double quote and no newline or
carriage return (either would corrupt the line structure of the file);
the resolved extension contains no whitespace and no double quote; every
label id lies in `[0, n)` for the catalog size `n` used at decode time;
and, when the id whitespace-splits into at most one token (the unquoted
case), the id must contain no whitespace at all, the filename token must
be nonempty, and `os.path.splitext` must cut the token back into the id
and the extension.  When the id whitespace-splits into several tokens
(the quoted case) the extension must be nonempty. -/
def encItemOk (n : Nat) (it : EncItem) : Prop :=
  ('"' ∉ it.id ∧ '\n' ∉ it.id ∧ '\r' ∉ it.id) ∧
  (∀ c ∈ it.ext, pyIsSpace c = false ∧ c ≠ '"') ∧
  (∀ l ∈ it.labels, 0 ≤ l ∧ l < (n : Int)) ∧
  (if 1 < (wsTokens it.id).length then it.ext ≠ []
   else (∀ c ∈ it.id, pyIsSpace c = false) ∧ it.id ++ it.ext ≠ [] ∧
     splitext (it.id ++ it.ext) = (it.id, it.ext))

instance (n : Nat) (it : EncItem) : Decidable (encItemOk n it) := by
  unfold encItemOk
  infer_instance

/-! ## Lemmas about the splitting primitives -/

theorem splitP_ne_nil (p : Char → Bool) (l : List Char) :
    splitP p l ≠ [] := by
  cases l with
  | nil => simp [splitP]
  | cons c cs =>
    simp only [splitP]
    split
    · simp
    · split <;> simp

theorem splitP_cons_sep (p : Char → Bool) (c : Char) (cs : List Char)
    (h : p c = true) : splitP p (c :: cs) = [] :: splitP p cs := by
  simp [splitP, h]

theorem splitP_cons_noSep (p : Char → Bool) (c : Char) (cs : List Char)
    (h : p c = false) :
    splitP p (c :: cs) =
      (c :: (splitP p cs).headD []) :: (splitP p cs).tail := by
  simp only [splitP, h, Bool.false_eq_true, if_neg, not_false_iff]
  rcases hs : splitP p cs with _ | ⟨piece, rest⟩
  · exact absurd hs (splitP_ne_nil p cs)
  · simp

theorem splitP_append_noSep (p : Char → Bool) (a b : List Char)
    (ha : ∀ c ∈ a, p c = false) :
    splitP p (a ++ b) =
      (a ++ (splitP p b).headD []) :: (splitP p b).tail := by
  induction a with
  | nil =>
    simp only [List.nil_append]
    rcases hs : splitP p b with _ | ⟨piece, rest⟩
    · exact absurd hs (splitP_ne_nil p b)
    · simp
  | cons c cs ih =>
    have hc : p c = false := ha c (by simp)
    have ih' := ih (fun d hd => ha d (by simp [hd]))
    rw [List.cons_append, splitP_cons_noSep p c (cs ++ b) hc, ih']
    simp

theorem splitP_noSep (p : Char → Bool) (l : List Char)
    (h : ∀ c ∈ l, p c = false) : splitP p l = [l] := by
  have := splitP_append_noSep p l [] h
  simpa [splitP] using this

theorem splitP_append_sep (p : Char → Bool) (a : List Char) (c : Char)
    (b : List Char) (ha : ∀ d ∈ a, p d = false) (hc : p c = true) :
    splitP p (a ++ c :: b) = a :: splitP p b := by
  rw [splitP_append_noSep p a (c :: b) ha, splitP_cons_sep p c b hc]
  simp

theorem length_splitP (p : Char → Bool) (l : List Char) :
    (splitP p l).length = l.countP p + 1 := by
  induction l with
  | nil => simp [splitP]
  | cons c cs ih =>
    by_cases h : p c
    · rw [splitP_cons_sep p c cs h]
      simp [List.countP_cons, h, ih]
    · have h' : p c = false := by simpa using h
      rw [splitP_cons_noSep p c cs h']
      rcases hs : splitP p cs with _ | ⟨piece, rest⟩
      · exact absurd hs (splitP_ne_nil p cs)
      · rw [hs] at ih
        simp [List.countP_cons, h'] at ih ⊢
        omega

/-! ## Lemmas about whitespace tokenisation -/

theorem wsTokens_cons_tok (t rest : List Char) (ht : t ≠ [])
    (hns : ∀ c ∈ t, pyIsSpace c = false) :
    wsTokens (t ++ ' ' :: rest) = t :: wsTokens rest := by
  unfold wsTokens
  rw [splitP_append_sep pyIsSpace t ' ' rest hns (by decide)]
  simp [List.filter_cons, ht]

theorem wsTokens_tok_nl (t : List Char) (ht : t ≠ [])
    (hns : ∀ c ∈ t, pyIsSpace c = false) :
    wsTokens (t ++ ['\n']) = [t] := by
  unfold wsTokens
  rw [show (['\n'] : List Char) = '\n' :: [] from rfl,
    splitP_append_sep pyIsSpace t '\n' [] hns (by decide)]
  simp [splitP, List.filter_cons, ht]

theorem wsTokens_joinSep_nl (ss : List (List Char))
    (h : ∀ s ∈ ss, s ≠ [] ∧ ∀ c ∈ s, pyIsSpace c = false) :
    wsTokens (joinSep ss ++ ['\n']) = ss := by
  induction ss with
  | nil => decide
  | cons s rest ih =>
    cases rest with
    | nil =>
      exact wsTokens_tok_nl s (h s (by simp)).1 (h s (by simp)).2
    | cons t ts =>
      have hs := h s (by simp)
      have hstep : joinSep (s :: t :: ts) = s ++ ' ' :: joinSep (t :: ts) :=
        rfl
      rw [hstep, List.append_assoc, List.cons_append,
        wsTokens_cons_tok s _ hs.1 hs.2,
        ih (fun u hu => h u (by simp [hu]))]

/-! ## Lemmas about line iteration and newline translation -/

theorem translateNewlines_of_no_cr (l : List Char) (h : '\r' ∉ l) :
    translateNewlines l = l := by
  induction l with
  | nil => rfl
  | cons c cs ih =>
    have hc : ¬c = '\r' := fun e => h (by simp [e])
    have hcs : '\r' ∉ cs := fun m => h (by simp [m])
    cases cs with
    | nil => simp [translateNewlines, hc]
    | cons d ds =>
      simp only [translateNewlines, if_neg hc]
      rw [ih hcs]

theorem splitNL_flatten (bodies : List (List Char))
    (h : ∀ b ∈ bodies, '\n' ∉ b) :
    splitP (fun c => c = '\n')
      ((bodies.map (fun b => b ++ ['\n'])).flatten) = bodies ++ [[]] := by
  induction bodies with
  | nil => simp [splitP]
  | cons b bs ih =>
    have hb : ∀ c ∈ b, (decide (c = '\n')) = false := fun c hc =>
      decide_eq_false (fun e => h b (by simp) (e ▸ hc))
    simp only [List.map_cons, List.flatten_cons, List.append_assoc,
      List.cons_append, List.nil_append]
    rw [splitP_append_sep _ b '\n' _ hb (by decide),
      ih (fun u hu => h u (by simp [hu]))]

theorem pyLines_flatten (bodies : List (List Char))
    (h : ∀ b ∈ bodies, '\n' ∉ b) :
    pyLines ((bodies.map (fun b => b ++ ['\n'])).flatten) =
      bodies.map (fun b => b ++ ['\n']) := by
  unfold pyLines
  rw [splitNL_flatten bodies h]
  simp [List.getLast?_concat, List.dropLast_concat]

/-! ## Lemmas about stripping -/

theorem length_dropWhile_le (p : Char → Bool) (l : List Char) :
    (l.dropWhile p).length ≤ l.length := by
  induction l with
  | nil => simp
  | cons c cs ih =>
    rcases h : p c with _ | _
    · simp [List.dropWhile_cons, h]
    · rw [List.dropWhile_cons, if_pos h]
      simp only [List.length_cons]
      omega

theorem dropWhile_eq_self_of_length (p : Char → Bool) (l : List Char)
    (h : (l.dropWhile p).length = l.length) : l.dropWhile p = l := by
  cases l with
  | nil => simp
  | cons c cs =>
    rcases hc : p c with _ | _
    · simp [List.dropWhile_cons, hc]
    · exfalso
      rw [List.dropWhile_cons, if_pos hc] at h
      have h2 := length_dropWhile_le p cs
      simp only [List.length_cons] at h
      omega

theorem pyStrip_parts (l : List Char) (h : pyStrip l = l) :
    l.dropWhile pyIsSpace = l ∧
      l.reverse.dropWhile pyIsSpace = l.reverse := by
  have h1 : (l.dropWhile pyIsSpace).length ≤ l.length :=
    length_dropWhile_le pyIsSpace l
  have h2 : (pyStrip l).length ≤ (l.dropWhile pyIsSpace).length := by
    unfold pyStrip
    rw [List.length_reverse]
    calc ((l.dropWhile pyIsSpace).reverse.dropWhile pyIsSpace).length
        ≤ (l.dropWhile pyIsSpace).reverse.length :=
          length_dropWhile_le _ _
      _ = (l.dropWhile pyIsSpace).length := List.length_reverse _
  rw [h] at h2
  have hd : l.dropWhile pyIsSpace = l :=
    dropWhile_eq_self_of_length pyIsSpace l (le_antisymm h1 h2)
  refine ⟨hd, ?_⟩
  have : pyStrip l = (l.reverse.dropWhile pyIsSpace).reverse := by
    unfold pyStrip
    rw [hd]
  rw [h] at this
  have := congrArg List.reverse this
  simpa using this.symm

theorem pyStrip_append_nl (l : List Char) (h : pyStrip l = l) :
    pyStrip (l ++ ['\n']) = l := by
  cases l with
  | nil => decide
  | cons c cs =>
    obtain ⟨hd, hr⟩ := pyStrip_parts _ h
    have hc : pyIsSpace c = false := by
      by_contra hcc
      rw [Bool.not_eq_false] at hcc
      rw [List.dropWhile_cons, if_pos hcc] at hd
      have h2 := length_dropWhile_le pyIsSpace cs
      have h3 := congrArg List.length hd
      simp only [List.length_cons] at h3
      omega
    unfold pyStrip
    have e1 : List.dropWhile pyIsSpace ((c :: cs) ++ ['\n']) =
        (c :: cs) ++ ['\n'] := by
      rw [List.cons_append, List.dropWhile_cons, if_neg (by simp [hc])]
    rw [e1]
    have e2 : ((c :: cs) ++ ['\n']).reverse = '\n' :: (c :: cs).reverse := by
      simp
    rw [e2, List.dropWhile_cons, if_pos (by decide), hr]
    simp

/-! ## Lemmas about printing and parsing integers -/

theorem natToCharsF_mono (m : Nat) : ∀ f f', m < f → m < f' →
    natToCharsF f m = natToCharsF f' m := by
  induction m using Nat.strong_induction_on with
  | _ m ih =>
    intro f f' hf hf'
    cases f with
    | zero => omega
    | succ f =>
      cases f' with
      | zero => omega
      | succ f' =>
        simp only [natToCharsF]
        by_cases h : m < 10
        · simp [h]
        · rw [if_neg h, if_neg h,
            ih (m / 10) (Nat.div_lt_self (by omega) (by omega)) f f'
              (by omega) (by omega)]

theorem natToChars_unfold (n : Nat) :
    natToChars n = if n < 10 then [Char.ofNat (48 + n)]
      else natToChars (n / 10) ++ [Char.ofNat (48 + n % 10)] := by
  by_cases h : n < 10
  · simp [natToChars, natToCharsF, h]
  · rw [if_neg h]
    have e1 : natToChars n =
        natToCharsF n (n / 10) ++ [Char.ofNat (48 + n % 10)] := by
      show natToCharsF (n + 1) n = _
      simp only [natToCharsF, if_neg h]
    rw [e1]
    congr 1
    exact natToCharsF_mono (n / 10) n (n / 10 + 1)
      (Nat.div_lt_self (by omega) (by omega)) (by omega)

theorem digit_facts (k : Nat) (h : k < 10) :
    (Char.ofNat (48 + k)).isDigit = true ∧
      (Char.ofNat (48 + k)).toNat = 48 + k := by
  interval_cases k <;> exact ⟨by decide, by decide⟩

theorem natToChars_ne_nil (n : Nat) : natToChars n ≠ [] := by
  rw [natToChars_unfold]
  by_cases h : n < 10 <;> simp [h]

theorem natToChars_all_digit (n : Nat) :
    ∀ c ∈ natToChars n, c.isDigit = true := by
  induction n using Nat.strong_induction_on with
  | _ n ih =>
    intro c hc
    rw [natToChars_unfold] at hc
    by_cases h : n < 10
    · rw [if_pos h] at hc
      simp only [List.mem_singleton] at hc
      exact hc ▸ (digit_facts n h).1
    · rw [if_neg h] at hc
      rcases List.mem_append.mp hc with h1 | h1
      · exact ih (n / 10) (Nat.div_lt_self (by omega) (by omega)) c h1
      · simp only [List.mem_singleton] at h1
        exact h1 ▸ (digit_facts (n % 10) (Nat.mod_lt n (by omega))).1

theorem isDigit_ne (c : Char) (h : c.isDigit = true) (d : Char)
    (hd : d.isDigit = false) : ¬c = d := by
  intro e
  rw [e, hd] at h
  cases h

theorem pyIsSpace_of_digit (c : Char) (h : c.isDigit = true) :
    pyIsSpace c = false := by
  unfold pyIsSpace
  rw [decide_eq_false (isDigit_ne c h ' ' (by decide)),
    decide_eq_false (isDigit_ne c h '\t' (by decide)),
    decide_eq_false (isDigit_ne c h '\n' (by decide)),
    decide_eq_false (isDigit_ne c h '\r' (by decide)),
    decide_eq_false (isDigit_ne c h '\x0b' (by decide)),
    decide_eq_false (isDigit_ne c h '\x0c' (by decide))]
  rfl

theorem natToChars_foldl (n : Nat) : ∀ acc : Nat,
    (natToChars n).foldl (fun a c => 10 * a + (c.toNat - 48)) acc =
      acc * 10 ^ (natToChars n).length + n := by
  induction n using Nat.strong_induction_on with
  | _ n ih =>
    intro acc
    by_cases h : n < 10
    · rw [natToChars_unfold, if_pos h]
      simp only [List.foldl_cons, List.foldl_nil, List.length_cons,
        List.length_nil]
      rw [(digit_facts n h).2]
      simp
      omega
    · have hlen : (natToChars n).length =
          (natToChars (n / 10)).length + 1 := by
        conv_lhs => rw [natToChars_unfold, if_neg h]
        simp
      rw [hlen]
      conv_lhs => rw [natToChars_unfold, if_neg h]
      rw [List.foldl_append,
        ih (n / 10) (Nat.div_lt_self (by omega) (by omega)) acc]
      simp only [List.foldl_cons, List.foldl_nil]
      rw [(digit_facts (n % 10) (Nat.mod_lt n (by omega))).2]
      have hdm := Nat.div_add_mod n 10
      have hx : acc * 10 ^ ((natToChars (n / 10)).length + 1) =
          acc * 10 ^ (natToChars (n / 10)).length * 10 := by ring
      rw [hx]
      generalize acc * 10 ^ (natToChars (n / 10)).length = X
      omega

theorem parseDigits_natToChars (n : Nat) :
    parseDigits (natToChars n) = some n := by
  unfold parseDigits
  rw [if_pos ⟨natToChars_ne_nil n,
    List.all_eq_true.mpr (fun c hc => natToChars_all_digit n c hc)⟩]
  rw [natToChars_foldl n 0]
  simp

theorem pyInt_natToChars (n : Nat) :
    pyInt (natToChars n) = some (Int.ofNat n) := by
  rcases e : natToChars n with _ | ⟨c, cs⟩
  · exact absurd e (natToChars_ne_nil n)
  · have hc : c.isDigit = true :=
      natToChars_all_digit n c (e ▸ List.mem_cons_self c cs)
    simp only [pyInt]
    rw [if_neg (isDigit_ne c hc '+' (by decide)),
      if_neg (isDigit_ne c hc '-' (by decide)), ← e,
      parseDigits_natToChars]
    rfl

theorem pyInt_intToChars (l : Int) (h : 0 ≤ l) :
    pyInt (intToChars l) = some l := by
  cases l with
  | ofNat n => exact pyInt_natToChars n
  | negSucc n => exact absurd h (by simp)

theorem intToChars_digits (l : Int) (h : 0 ≤ l) :
    ∀ c ∈ intToChars l, c.isDigit = true := by
  cases l with
  | ofNat n => exact natToChars_all_digit n
  | negSucc n => exact absurd h (by simp)

theorem intToChars_ne_nil (l : Int) (h : 0 ≤ l) : intToChars l ≠ [] := by
  cases l with
  | ofNat n => exact natToChars_ne_nil n
  | negSucc n => exact absurd h (by simp)

theorem traverseInt_map (ls : List Int) (h : ∀ l ∈ ls, 0 ≤ l) :
    traverseInt (ls.map intToChars) = Except.ok ls := by
  induction ls with
  | nil => rfl
  | cons l rest ih =>
    simp only [List.map_cons, traverseInt]
    rw [pyInt_intToChars l (h l (by simp)),
      ih (fun x hx => h x (by simp [hx]))]

theorem traverseInt_error_shape (ts : List (List Char)) (e : DecodeError)
    (h : traverseInt ts = Except.error e) :
    ∃ t, e = DecodeError.malformedInteger t := by
  induction ts with
  | nil => cases h
  | cons t ts ih =>
    simp only [traverseInt] at h
    rcases hp : pyInt t with _ | v
    · rw [hp] at h
      exact ⟨t, (Except.error.injEq _ _ ▸ h).symm⟩
    · rw [hp] at h
      rcases ht : traverseInt ts with e' | vs
      · rw [ht] at h
        cases h
        exact ih ht
      · rw [ht] at h
        cases h

theorem checkLabels_ok_iff (n : Nat) (id : List Char) (ls : List Int) :
    checkLabels n id ls = Except.ok () ↔
      ∀ l ∈ ls, 0 ≤ l ∧ l < (n : Int) := by
  induction ls with
  | nil => simp [checkLabels]
  | cons l rest ih =>
    simp only [checkLabels]
    by_cases hl : 0 ≤ l ∧ l < (n : Int)
    · rw [if_pos hl, ih]
      simp [hl]
    · rw [if_neg hl]
      simp only [List.mem_cons]
      constructor
      · intro h
        cases h
      · intro h
        exact absurd (h l (Or.inl rfl)) hl

theorem checkLabels_bad (n : Nat) (id : List Char) (ls : List Int)
    (h : ∃ l ∈ ls, ¬(0 ≤ l ∧ l < (n : Int))) :
    ∃ b ∈ ls, ¬(0 ≤ b ∧ b < (n : Int)) ∧
      checkLabels n id ls = Except.error (DecodeError.invalidLabelId id b) := by
  induction ls with
  | nil => simp at h
  | cons l rest ih =>
    by_cases hl : 0 ≤ l ∧ l < (n : Int)
    · have hrest : ∃ x ∈ rest, ¬(0 ≤ x ∧ x < (n : Int)) := by
        rcases h with ⟨x, hx, hbad⟩
        rcases List.mem_cons.mp hx with rfl | hx'
        · exact absurd hl hbad
        · exact ⟨x, hx', hbad⟩
      rcases ih hrest with ⟨b, hb, hbad, heq⟩
      exact ⟨b, by simp [hb], hbad, by
        simp only [checkLabels]
        rw [if_pos hl, heq]⟩
    · exact ⟨l, by simp, hl, by
        simp only [checkLabels]
        rw [if_neg hl]⟩

theorem checkLabels_error_shape (n : Nat) (id : List Char)
    (ls : List Int) (e : DecodeError)
    (h : checkLabels n id ls = Except.error e) :
    ∃ b, e = DecodeError.invalidLabelId id b := by
  induction ls with
  | nil => cases h
  | cons l rest ih =>
    simp only [checkLabels] at h
    by_cases hl : 0 ≤ l ∧ l < (n : Int)
    · rw [if_pos hl] at h
      exact ih h
    · rw [if_neg hl] at h
      cases h
      exact ⟨l, rfl⟩

/-! ## Lemmas about first-occurrence deduplication -/

theorem mem_dedupFirstAux {α : Type} [DecidableEq α] (x : α) :
    ∀ (l seen : List α),
      x ∈ dedupFirstAux seen l ↔ x ∈ l ∧ x ∉ seen := by
  intro l
  induction l with
  | nil => intro seen; simp [dedupFirstAux]
  | cons y ys ih =>
    intro seen
    by_cases hy : y ∈ seen
    · rw [show dedupFirstAux seen (y :: ys) = dedupFirstAux seen ys from by
        simp [dedupFirstAux, hy]]
      rw [ih seen]
      by_cases hxy : x = y
      · subst hxy
        simp [hy]
      · simp [hxy]
    · rw [show dedupFirstAux seen (y :: ys) =
          y :: dedupFirstAux (y :: seen) ys from by
        simp [dedupFirstAux, hy]]
      by_cases hxy : x = y
      · subst hxy
        simp [hy]
      · simp only [List.mem_cons, hxy, false_or, ih (y :: seen)]

theorem mem_dedupFirst {α : Type} [DecidableEq α] (x : α) (l : List α) :
    x ∈ dedupFirst l ↔ x ∈ l := by
  unfold dedupFirst
  rw [mem_dedupFirstAux]
  simp

theorem toFinset_dedupFirst {α : Type} [DecidableEq α] (l : List α) :
    (dedupFirst l).toFinset = l.toFinset := by
  ext x
  simp [List.mem_toFinset, mem_dedupFirst]

theorem dedupFirstAux_concat {α : Type} [DecidableEq α] (k : α) :
    ∀ (xs seen : List α),
      dedupFirstAux seen (xs ++ [k]) =
        dedupFirstAux seen xs ++
          (if k ∈ seen ∨ k ∈ xs then [] else [k]) := by
  intro xs
  induction xs with
  | nil =>
    intro seen
    by_cases hk : k ∈ seen <;> simp [dedupFirstAux, hk]
  | cons y ys ih =>
    intro seen
    by_cases hy : y ∈ seen
    · rw [List.cons_append,
        show dedupFirstAux seen (y :: (ys ++ [k])) =
          dedupFirstAux seen (ys ++ [k]) from by simp [dedupFirstAux, hy],
        show dedupFirstAux seen (y :: ys) = dedupFirstAux seen ys from by
          simp [dedupFirstAux, hy],
        ih seen]
      by_cases hk : k = y
      · subst hk
        simp [hy]
      · simp [List.mem_cons, hk]
    · rw [List.cons_append,
        show dedupFirstAux seen (y :: (ys ++ [k])) =
          y :: dedupFirstAux (y :: seen) (ys ++ [k]) from by
            simp [dedupFirstAux, hy],
        show dedupFirstAux seen (y :: ys) =
          y :: dedupFirstAux (y :: seen) ys from by
            simp [dedupFirstAux, hy],
        ih (y :: seen)]
      have hcond : (k ∈ y :: seen ∨ k ∈ ys) ↔ (k ∈ seen ∨ k ∈ y :: ys) := by
        simp only [List.mem_cons]
        tauto
      by_cases hk : k ∈ seen ∨ k ∈ y :: ys
      · rw [if_pos (hcond.mpr hk), if_pos hk]
        simp
      · rw [if_neg (fun h2 => hk (hcond.mp h2)), if_neg hk]
        simp

theorem dedupFirst_concat {α : Type} [DecidableEq α] (xs : List α) (k : α) :
    dedupFirst (xs ++ [k]) =
      dedupFirst xs ++ (if k ∈ xs then [] else [k]) := by
  unfold dedupFirst
  rw [dedupFirstAux_concat k xs []]
  simp

/-! ## Lemmas about the insertion-ordered dictionary -/

theorem insertOrdered_fresh {α : Type} (m : List (List Char × α))
    (k : List Char) (v : α) (h : ∀ p ∈ m, p.1 ≠ k) :
    insertOrdered m k v = m ++ [(k, v)] := by
  unfold insertOrdered
  rw [if_neg]
  intro hc
  rcases List.any_eq_true.mp hc with ⟨p, hp, he⟩
  exact h p hp (of_decide_eq_true he)

theorem keys_insertOrdered {α : Type} (m : List (List Char × α))
    (k : List Char) (v : α) :
    (insertOrdered m k v).map Prod.fst =
      if k ∈ m.map Prod.fst then m.map Prod.fst
      else m.map Prod.fst ++ [k] := by
  unfold insertOrdered
  by_cases h : ∃ p ∈ m, p.1 = k
  · have hmem : k ∈ m.map Prod.fst := by
      rcases h with ⟨p, hp, he⟩
      exact List.mem_map.mpr ⟨p, hp, he⟩
    rw [if_pos (List.any_eq_true.mpr
        (by rcases h with ⟨p, hp, he⟩; exact ⟨p, hp, decide_eq_true he⟩)),
      if_pos hmem, List.map_map]
    apply List.map_congr_left
    intro p _
    by_cases hp : p.1 = k
    · simp [hp]
    · simp [hp]
  · have hmem : k ∉ m.map Prod.fst := by
      intro hc
      rcases List.mem_map.mp hc with ⟨p, hp, he⟩
      exact h ⟨p, hp, he⟩
    rw [if_neg (fun hc => by
        rcases List.any_eq_true.mp hc with ⟨p, hp, he⟩
        exact h ⟨p, hp, of_decide_eq_true he⟩),
      if_neg hmem]
    simp

theorem lookupOrd_append {α : Type} (k : List Char)
    (a b : List (List Char × α)) :
    lookupOrd k (a ++ b) =
      match lookupOrd k a with
      | some v => some v
      | none => lookupOrd k b := by
  induction a with
  | nil => simp [lookupOrd]
  | cons p ps ih =>
    by_cases hp : p.1 = k
    · simp [lookupOrd, hp]
    · simp only [List.cons_append, lookupOrd, if_neg hp]
      exact ih

theorem lookupOrd_eq_none {α : Type} (k : List Char)
    (m : List (List Char × α)) (h : ∀ p ∈ m, p.1 ≠ k) :
    lookupOrd k m = none := by
  induction m with
  | nil => rfl
  | cons p ps ih =>
    simp only [lookupOrd, if_neg (h p (by simp))]
    exact ih (fun q hq => h q (by simp [hq]))

theorem lookupOrd_map_replace_ne {α : Type} (k k' : List Char) (v : α)
    (hne : k' ≠ k) (m : List (List Char × α)) :
    lookupOrd k'
        (m.map (fun p => if p.1 = k then (k, v) else p)) =
      lookupOrd k' m := by
  induction m with
  | nil => rfl
  | cons p ps ih =>
    simp only [List.map_cons]
    by_cases hp : p.1 = k
    · rw [if_pos hp]
      show (if k = k' then some v else _) =
        (if p.1 = k' then some p.2 else lookupOrd k' ps)
      rw [if_neg (fun e => hne e.symm),
        if_neg (fun e => hne ((hp.symm.trans e).symm))]
      exact ih
    · rw [if_neg hp]
      show (if p.1 = k' then some p.2 else _) =
        (if p.1 = k' then some p.2 else lookupOrd k' ps)
      by_cases hpk : p.1 = k'
      · rw [if_pos hpk, if_pos hpk]
      · rw [if_neg hpk, if_neg hpk]
        exact ih

theorem lookupOrd_map_replace_eq {α : Type} (k : List Char) (v : α) :
    ∀ m : List (List Char × α), (∃ p ∈ m, p.1 = k) →
      lookupOrd k (m.map (fun p => if p.1 = k then (k, v) else p)) =
        some v := by
  intro m
  induction m with
  | nil =>
    intro h
    rcases h with ⟨q, hq, _⟩
    exact absurd hq (List.not_mem_nil q)
  | cons p ps ih =>
    intro h
    simp only [List.map_cons]
    by_cases hp : p.1 = k
    · rw [if_pos hp]
      show (if k = k then some v else _) = some v
      rw [if_pos rfl]
    · rw [if_neg hp]
      show (if p.1 = k then some p.2 else _) = some v
      rw [if_neg hp]
      apply ih
      rcases h with ⟨q, hq, he⟩
      rcases List.mem_cons.mp hq with rfl | hq'
      · exact absurd he hp
      · exact ⟨q, hq', he⟩

theorem lookupOrd_insertOrdered {α : Type} (m : List (List Char × α))
    (k k' : List Char) (v : α) :
    lookupOrd k' (insertOrdered m k v) =
      if k' = k then some v else lookupOrd k' m := by
  unfold insertOrdered
  by_cases h : ∃ p ∈ m, p.1 = k
  · rw [if_pos (List.any_eq_true.mpr
      (by rcases h with ⟨p, hp, he⟩; exact ⟨p, hp, decide_eq_true he⟩))]
    by_cases hk : k' = k
    · subst hk
      rw [if_pos rfl]
      exact lookupOrd_map_replace_eq k' v m h
    · rw [if_neg hk]
      exact lookupOrd_map_replace_ne k k' v hk m
  · rw [if_neg (fun hc => by
      rcases List.any_eq_true.mp hc with ⟨p, hp, he⟩
      exact h ⟨p, hp, of_decide_eq_true he⟩)]
    rw [lookupOrd_append]
    by_cases hk : k' = k
    · subst hk
      rw [lookupOrd_eq_none k' m (fun p hp e => h ⟨p, hp, e⟩),
        if_pos rfl]
      show lookupOrd k' [(k', v)] = some v
      show (if k' = k' then some v else lookupOrd k' []) = some v
      rw [if_pos rfl]
    · rw [if_neg hk]
      rcases hm : lookupOrd k' m with _ | w
      · show lookupOrd k' [(k, v)] = none
        show (if k = k' then some v else lookupOrd k' []) = none
        rw [if_neg (fun e => hk e.symm)]
        rfl
      · rfl

theorem fromPairs_concat {α : Type} (ps : List (List Char × α))
    (p : List Char × α) :
    fromPairs (ps ++ [p]) = insertOrdered (fromPairs ps) p.1 p.2 := by
  unfold fromPairs
  rw [List.foldl_concat]

theorem keys_fromPairs {α : Type} (ps : List (List Char × α)) :
    (fromPairs ps).map Prod.fst = dedupFirst (ps.map Prod.fst) := by
  induction ps using List.reverseRecOn with
  | nil => rfl
  | append_singleton ps p ih =>
    rw [fromPairs_concat, keys_insertOrdered, ih, List.map_append,
      List.map_singleton, dedupFirst_concat]
    by_cases h : p.1 ∈ ps.map Prod.fst
    · rw [if_pos ((mem_dedupFirst _ _).mpr h), if_pos h]
      simp
    · rw [if_neg (fun hc => h ((mem_dedupFirst _ _).mp hc)), if_neg h]

theorem lookup_fromPairs {α : Type} (ps : List (List Char × α))
    (k : List Char) : lookupOrd k (fromPairs ps) = lastVal k ps := by
  induction ps using List.reverseRecOn with
  | nil => rfl
  | append_singleton ps p ih =>
    rw [fromPairs_concat, lookupOrd_insertOrdered, ih]
    unfold lastVal
    rw [List.filter_append]
    by_cases h : p.1 = k
    · rw [if_pos h.symm, show List.filter (fun q => decide (q.1 = k)) [p]
        = [p] from by simp [List.filter_cons, h], List.getLast?_concat]
      simp
    · rw [if_neg (fun e => h e.symm),
        show List.filter (fun q => decide (q.1 = k)) [p] = [] from by
          simp [List.filter_cons, h]]
      simp

theorem foldl_insert_fresh {α β : Type} (tokf : β → List Char)
    (valf : β → α) :
    ∀ (l : List β) (m : List (List Char × α)),
      (l.map tokf).Nodup →
      (∀ q ∈ m, ∀ x ∈ l, q.1 ≠ tokf x) →
      l.foldl (fun m x => insertOrdered m (tokf x) (valf x)) m =
        m ++ l.map (fun x => (tokf x, valf x)) := by
  intro l
  induction l with
  | nil => intro m _ _; simp
  | cons x xs ih =>
    intro m hnd hdis
    have hnd' : (tokf x :: xs.map tokf).Nodup := hnd
    have h1 : tokf x ∉ xs.map tokf := (List.nodup_cons.mp hnd').1
    have h2 : (xs.map tokf).Nodup := (List.nodup_cons.mp hnd').2
    have hdis2 : ∀ q ∈ m ++ [(tokf x, valf x)], ∀ y ∈ xs,
        q.1 ≠ tokf y := by
      intro q hq y hy
      rcases List.mem_append.mp hq with hq' | hq'
      · exact hdis q hq' y (by simp [hy])
      · have hqp : q = (tokf x, valf x) := List.mem_singleton.mp hq'
        subst hqp
        intro e
        have e' : tokf x = tokf y := e
        exact h1 (e' ▸ List.mem_map.mpr ⟨y, hy, rfl⟩)
    rw [List.foldl_cons,
      insertOrdered_fresh m (tokf x) (valf x)
        (fun q hq => hdis q hq x (by simp)),
      ih (m ++ [(tokf x, valf x)]) h2 hdis2]
    simp

/-! ## Lemmas about the line decoder -/

theorem bool_eq_false {b : Bool} (h : ¬b = true) : b = false := by
  cases b
  · rfl
  · exact absurd rfl h

theorem splitQuote_length (line : List Char) :
    (splitQuote line).length =
      line.countP (fun c => c = '"') + 1 :=
  length_splitP _ line

theorem decodeRaw_three (line p0 p1 p2 : List Char)
    (h : splitQuote line = [p0, p1, p2]) :
    decodeRaw line = decodeQuoted p1 p2 := by
  unfold decodeRaw
  rw [h]
  norm_num [List.getD]

theorem decodeRaw_noQuote (line : List Char)
    (h : line.countP (fun c => c = '"') = 0) :
    decodeRaw line = decodeUnquoted line := by
  have hs : splitQuote line = [line] :=
    splitP_noSep _ line
      (fun c hc => bool_eq_false (List.countP_eq_zero.mp h c hc))
  unfold decodeRaw
  rw [hs]
  norm_num

theorem decodeRaw_malformed (line : List Char)
    (h : ¬(line.countP (fun c => c = '"') = 0 ∨
      line.countP (fun c => c = '"') = 2)) :
    decodeRaw line = Except.error (DecodeError.malformedLine line) := by
  push_neg at h
  have hlen := splitQuote_length line
  unfold decodeRaw
  rw [if_pos (by omega), if_neg (by omega)]

theorem decodeQuoted_ok (p1 p2 t0 : List Char) (rest : List (List Char))
    (ls : List Int) (hw : wsTokens p2 = t0 :: rest)
    (ht : traverseInt rest = Except.ok ls) :
    decodeQuoted p1 p2 = Except.ok (p1, p1 ++ t0, ls) := by
  unfold decodeQuoted
  simp only [hw, ht]

theorem decodeUnquoted_ok (line t0 : List Char) (rest : List (List Char))
    (ls : List Int) (hw : wsTokens line = t0 :: rest)
    (ht : traverseInt rest = Except.ok ls) :
    decodeUnquoted line = Except.ok ((splitext t0).1, t0, ls) := by
  unfold decodeUnquoted
  simp only [hw, ht]

theorem decodeQuoted_error_shape (p1 p2 : List Char) (e : DecodeError)
    (h : decodeQuoted p1 p2 = Except.error e) :
    e = DecodeError.indexError ∨
      ∃ t, e = DecodeError.malformedInteger t := by
  unfold decodeQuoted at h
  rcases hw : wsTokens p2 with _ | ⟨t0, rest⟩
  · simp only [hw] at h
    cases h
    exact Or.inl rfl
  · simp only [hw] at h
    rcases ht : traverseInt rest with e' | ls
    · simp only [ht] at h
      cases h
      exact Or.inr (traverseInt_error_shape rest e ht)
    · simp only [ht] at h
      cases h

theorem decodeUnquoted_error_shape (line : List Char) (e : DecodeError)
    (h : decodeUnquoted line = Except.error e) :
    e = DecodeError.indexError ∨
      ∃ t, e = DecodeError.malformedInteger t := by
  unfold decodeUnquoted at h
  rcases hw : wsTokens line with _ | ⟨t0, rest⟩
  · simp only [hw] at h
    cases h
    exact Or.inl rfl
  · simp only [hw] at h
    rcases ht : traverseInt rest with e' | ls
    · simp only [ht] at h
      cases h
      exact Or.inr (traverseInt_error_shape rest e ht)
    · simp only [ht] at h
      cases h

theorem decodeLine_of_raw_error (n : Nat) (line : List Char)
    (e : DecodeError) (h : decodeRaw line = Except.error e) :
    decodeLine n line = Except.error e := by
  unfold decodeLine
  rw [h]

theorem decodeLine_ok (n : Nat) (line id img : List Char) (ls : List Int)
    (h : decodeRaw line = Except.ok (id, img, ls))
    (hl : ∀ l ∈ ls, 0 ≤ l ∧ l < (n : Int)) :
    decodeLine n line = Except.ok (id, img, ls) := by
  unfold decodeLine
  simp only [h, (checkLabels_ok_iff n id ls).mpr hl]

theorem decodeLine_no_malformed (n : Nat) (line : List Char)
    (hq : line.countP (fun c => c = '"') = 0 ∨
      line.countP (fun c => c = '"') = 2) :
    ∀ l', decodeLine n line ≠
      Except.error (DecodeError.malformedLine l') := by
  intro l' h
  have hshape : ∀ e, decodeRaw line = Except.error e →
      (e = DecodeError.indexError ∨
        ∃ t, e = DecodeError.malformedInteger t) := by
    intro e he
    rcases hq with hq | hq
    · rw [decodeRaw_noQuote line hq] at he
      exact decodeUnquoted_error_shape line e he
    · have hlen := splitQuote_length line
      rw [hq] at hlen
      rcases hp : splitQuote line with _ | ⟨p0, t⟩
      · exact absurd hp (splitP_ne_nil _ line)
      · rcases t with _ | ⟨p1, t2⟩
        · rw [hp] at hlen
          simp only [List.length_cons, List.length_nil] at hlen
          omega
        · rcases t2 with _ | ⟨p2, t3⟩
          · rw [hp] at hlen
            simp only [List.length_cons, List.length_nil] at hlen
            omega
          · rcases t3 with _ | ⟨p3, t4⟩
            · rw [decodeRaw_three line p0 p1 p2 hp] at he
              exact decodeQuoted_error_shape p1 p2 e he
            · rw [hp] at hlen
              simp only [List.length_cons] at hlen
              omega
  unfold decodeLine at h
  rcases hr : decodeRaw line with e | r
  · simp only [hr] at h
    cases h
    rcases hshape _ hr with he | ⟨t, he⟩ <;> cases he
  · simp only [hr] at h
    rcases hc : checkLabels n r.1 r.2.2 with e | u
    · simp only [hc] at h
      cases h
      rcases checkLabels_error_shape n r.1 r.2.2 _ hc with ⟨b, hb⟩
      cases hb
    · simp only [hc] at h
      cases h

/-! ## Lemmas about the emitted text -/

theorem foldl_append_flatten {β : Type} (f : β → List Char) :
    ∀ (l : List β) (acc : List Char),
      l.foldl (fun a x => a ++ f x) acc = acc ++ (l.map f).flatten := by
  intro l
  induction l with
  | nil => intro acc; simp
  | cons x xs ih =>
    intro acc
    rw [List.foldl_cons, ih]
    simp [List.append_assoc]

theorem storeLabels_flatten (names : List (List Char)) :
    storeLabels names = (names.map (fun nm => nm ++ ['\n'])).flatten := by
  have haux : ∀ acc,
      names.foldl (fun acc nm => acc ++ nm ++ ['\n']) acc =
        acc ++ (names.map (fun nm => nm ++ ['\n'])).flatten := by
    induction names with
    | nil => intro acc; simp
    | cons nm rest ih =>
      intro acc
      rw [List.foldl_cons, ih]
      simp [List.append_assoc]
  unfold storeLabels
  rw [haux []]
  simp

/-! ## Lemmas for the encode-decode round trip -/

theorem encodeToken_pos (id ext : List Char)
    (h : 1 < (wsTokens id).length) :
    encodeToken id ext = '"' :: id ++ '"' :: ext := by
  unfold encodeToken
  rw [if_pos h]
  simp

theorem encodeToken_neg (id ext : List Char)
    (h : ¬1 < (wsTokens id).length) :
    encodeToken id ext = id ++ ext := by
  unfold encodeToken
  rw [if_neg h]

theorem lineFor_eq (it : EncItem) : lineFor it = bodyFor it ++ ['\n'] := by
  simp [lineFor, bodyFor, emitLine, List.append_assoc]

theorem mem_joinSep (c : Char) :
    ∀ ss : List (List Char), c ∈ joinSep ss →
      c = ' ' ∨ ∃ s ∈ ss, c ∈ s := by
  intro ss
  induction ss with
  | nil => intro h; cases h
  | cons s rest ih =>
    cases rest with
    | nil =>
      intro h
      exact Or.inr ⟨s, by simp, h⟩
    | cons t ts =>
      intro h
      rcases List.mem_append.mp h with h1 | h1
      · exact Or.inr ⟨s, by simp, h1⟩
      · rcases List.mem_cons.mp h1 with rfl | h2
        · exact Or.inl rfl
        · rcases ih h2 with h3 | ⟨u, hu, hcu⟩
          · exact Or.inl h3
          · exact Or.inr ⟨u, by simp [hu], hcu⟩

theorem mem_encodeToken (c : Char) (id ext : List Char)
    (h : c ∈ encodeToken id ext) : c = '"' ∨ c ∈ id ∨ c ∈ ext := by
  unfold encodeToken at h
  by_cases hq : 1 < (wsTokens id).length
  · rw [if_pos hq] at h
    rcases List.mem_append.mp h with h1 | h1
    · rcases List.mem_cons.mp h1 with rfl | h2
      · exact Or.inl rfl
      · rcases List.mem_append.mp h2 with h3 | h3
        · exact Or.inr (Or.inl h3)
        · rcases List.mem_singleton.mp h3 with rfl
          exact Or.inl rfl
    · exact Or.inr (Or.inr h1)
  · rw [if_neg hq] at h
    rcases List.mem_append.mp h with h1 | h1
    · exact Or.inr (Or.inl h1)
    · exact Or.inr (Or.inr h1)

theorem pySetList_sub (ls : List Int) (l : Int) (h : l ∈ pySetList ls) :
    l ∈ ls :=
  (mem_dedupFirst l ls).mp h

theorem labelStrs_facts (n : Nat) (ls : List Int)
    (hl : ∀ l ∈ ls, 0 ≤ l ∧ l < (n : Int)) :
    ∀ s ∈ (pySetList ls).map intToChars,
      s ≠ [] ∧ ∀ c ∈ s, c.isDigit = true := by
  intro s hs
  rcases List.mem_map.mp hs with ⟨l, hlmem, rfl⟩
  have h0 : 0 ≤ l := (hl l (pySetList_sub ls l hlmem)).1
  exact ⟨intToChars_ne_nil l h0, intToChars_digits l h0⟩

theorem traverseInt_labelStrs (n : Nat) (ls : List Int)
    (hl : ∀ l ∈ ls, 0 ≤ l ∧ l < (n : Int)) :
    traverseInt ((pySetList ls).map intToChars) =
      Except.ok (pySetList ls) :=
  traverseInt_map (pySetList ls)
    (fun l hlm => (hl l (pySetList_sub ls l hlm)).1)

theorem bodyFor_chars (n : Nat) (it : EncItem) (hok : encItemOk n it)
    (c : Char) (hc : c ∈ bodyFor it) :
    c ≠ '\n' ∧ c ≠ '\r' := by
  obtain ⟨⟨hqid, hnlid, hcrid⟩, hext, hlab, _⟩ := hok
  unfold bodyFor at hc
  have hdig : ∀ d : Char, d.isDigit = true → d ≠ '\n' ∧ d ≠ '\r' :=
    fun d hd => ⟨isDigit_ne d hd '\n' (by decide),
      isDigit_ne d hd '\r' (by decide)⟩
  have hof_ws : ∀ d : Char, pyIsSpace d = false → d ≠ '\n' ∧ d ≠ '\r' := by
    intro d hd
    constructor
    · intro e
      rw [e] at hd
      cases hd
    · intro e
      rw [e] at hd
      cases hd
  rcases List.mem_append.mp hc with h1 | h1
  · rcases mem_encodeToken c it.id it.ext h1 with rfl | h2 | h2
    · exact ⟨by decide, by decide⟩
    · exact ⟨fun e => hnlid (e ▸ h2), fun e => hcrid (e ▸ h2)⟩
    · exact hof_ws c (hext c h2).1
  · rcases List.mem_cons.mp h1 with rfl | h2
    · exact ⟨by decide, by decide⟩
    · rcases mem_joinSep c _ h2 with rfl | ⟨s, hs, hcs⟩
      · exact ⟨by decide, by decide⟩
      · rcases labelStrs_facts n it.labels hlab s hs with ⟨-, hdigs⟩
        exact hdig c (hdigs c hcs)

theorem decodeLine_lineFor (n : Nat) (it : EncItem)
    (hok : encItemOk n it) :
    decodeLine n (lineFor it) =
      Except.ok (it.id, it.id ++ it.ext, pySetList it.labels) := by
  obtain ⟨⟨hqid, hnlid, hcrid⟩, hext, hlab, hbr⟩ := hok
  have hlab' : ∀ l ∈ pySetList it.labels, 0 ≤ l ∧ l < (n : Int) :=
    fun l hl => hlab l (pySetList_sub it.labels l hl)
  have hstrs := labelStrs_facts n it.labels hlab
  have htrav := traverseInt_labelStrs n it.labels hlab
  have hstrs_ws : ∀ s ∈ (pySetList it.labels).map intToChars,
      s ≠ [] ∧ ∀ c ∈ s, pyIsSpace c = false := by
    intro s hs
    exact ⟨(hstrs s hs).1,
      fun c hc => pyIsSpace_of_digit c ((hstrs s hs).2 c hc)⟩
  have hJ : wsTokens
      (joinSep ((pySetList it.labels).map intToChars) ++ ['\n']) =
      (pySetList it.labels).map intToChars :=
    wsTokens_joinSep_nl _ hstrs_ws
  have hJq : ∀ c ∈ joinSep ((pySetList it.labels).map intToChars),
      ¬c = '"' := by
    intro c hc
    rcases mem_joinSep c _ hc with rfl | ⟨s, hs, hcs⟩
    · decide
    · exact isDigit_ne c ((hstrs s hs).2 c hcs) '"' (by decide)
  by_cases hq : 1 < (wsTokens it.id).length
  · rw [if_pos hq] at hbr
    have hline : lineFor it =
        '"' :: (it.id ++ '"' :: (it.ext ++
          ' ' :: (joinSep ((pySetList it.labels).map intToChars) ++
            ['\n']))) := by
      rw [lineFor_eq]
      unfold bodyFor
      rw [encodeToken_pos it.id it.ext hq]
      simp [List.append_assoc]
    have htail_nq : ∀ c ∈ it.ext ++
        ' ' :: (joinSep ((pySetList it.labels).map intToChars) ++
          ['\n']), (decide (c = '"')) = false := by
      intro c hc
      apply decide_eq_false
      rcases List.mem_append.mp hc with h1 | h1
      · exact (hext c h1).2
      · rcases List.mem_cons.mp h1 with rfl | h2
        · decide
        · rcases List.mem_append.mp h2 with h3 | h3
          · exact hJq c h3
          · rcases List.mem_singleton.mp h3 with rfl
            decide
    have hsplit : splitQuote (lineFor it) =
        [[], it.id, it.ext ++
          ' ' :: (joinSep ((pySetList it.labels).map intToChars) ++
            ['\n'])] := by
      rw [hline]
      unfold splitQuote
      rw [splitP_cons_sep _ '"' _ (by decide),
        splitP_append_sep _ it.id '"' _
          (fun d hd => decide_eq_false
            (fun (e : d = '"') => hqid (e ▸ hd))) (by decide),
        splitP_noSep _ _ htail_nq]
    have hwtail : wsTokens (it.ext ++
        ' ' :: (joinSep ((pySetList it.labels).map intToChars) ++
          ['\n'])) = it.ext :: (pySetList it.labels).map intToChars := by
      rw [wsTokens_cons_tok it.ext _ hbr
        (fun c hc => (hext c hc).1), hJ]
    have hraw : decodeRaw (lineFor it) =
        Except.ok (it.id, it.id ++ it.ext, pySetList it.labels) := by
      rw [decodeRaw_three _ _ _ _ hsplit]
      exact decodeQuoted_ok it.id _ it.ext _ _ hwtail htrav
    exact decodeLine_ok n _ _ _ _ hraw hlab'
  · rw [if_neg hq] at hbr
    obtain ⟨hidns, htokne, hse⟩ := hbr
    have hline : lineFor it =
        (it.id ++ it.ext) ++
          ' ' :: (joinSep ((pySetList it.labels).map intToChars) ++
            ['\n']) := by
      rw [lineFor_eq]
      unfold bodyFor
      rw [encodeToken_neg it.id it.ext hq]
      simp [List.append_assoc]
    have hnq : ∀ c ∈ lineFor it, ¬(c = '"') := by
      intro c hc e
      rw [hline] at hc
      rcases List.mem_append.mp hc with h1 | h1
      · rcases List.mem_append.mp h1 with h2 | h2
        · exact hqid (e ▸ h2)
        · exact absurd e ((hext c h2).2)
      · rcases List.mem_cons.mp h1 with rfl | h2
        · cases e
        · rcases List.mem_append.mp h2 with h3 | h3
          · exact hJq c h3 e
          · rcases List.mem_singleton.mp h3 with rfl
            cases e
    have hcount : (lineFor it).countP (fun c => c = '"') = 0 :=
      List.countP_eq_zero.mpr
        (fun c hc hd => hnq c hc (of_decide_eq_true hd))
    have hwline : wsTokens (lineFor it) =
        (it.id ++ it.ext) :: (pySetList it.labels).map intToChars := by
      rw [hline, wsTokens_cons_tok (it.id ++ it.ext) _ htokne, hJ]
      intro c hc
      rcases List.mem_append.mp hc with h1 | h1
      · exact hidns c h1
      · exact (hext c h1).1
    have hraw : decodeRaw (lineFor it) =
        Except.ok (it.id, it.id ++ it.ext, pySetList it.labels) := by
      rw [decodeRaw_noQuote _ hcount]
      have := decodeUnquoted_ok (lineFor it) (it.id ++ it.ext) _ _
        hwline htrav
      rw [hse] at this
      exact this
    exact decodeLine_ok n _ _ _ _ hraw hlab'

theorem append_cons_inj (c : Char) :
    ∀ (a b x y : List Char), c ∉ a → c ∉ b →
      a ++ c :: x = b ++ c :: y → a = b ∧ x = y := by
  intro a
  induction a with
  | nil =>
    intro b x y _ hb he
    cases b with
    | nil =>
      simp only [List.nil_append] at he
      injection he with _ h2
      exact ⟨rfl, h2⟩
    | cons d ds =>
      simp only [List.nil_append, List.cons_append] at he
      injection he with h1 _
      exact absurd (h1 ▸ List.mem_cons_self d ds) hb
  | cons d ds ih =>
    intro b x y ha hb he
    cases b with
    | nil =>
      simp only [List.nil_append, List.cons_append] at he
      injection he with h1 _
      exact absurd (h1.symm ▸ List.mem_cons_self d ds) ha
    | cons e es =>
      simp only [List.cons_append] at he
      injection he with h1 h2
      subst h1
      have hres := ih es x y (fun m => ha (by simp [m]))
        (fun m => hb (by simp [m])) h2
      exact ⟨by rw [hres.1], hres.2⟩

theorem encodeToken_inj (n : Nat) (it it' : EncItem)
    (h : encItemOk n it) (h' : encItemOk n it')
    (he : encodeToken it.id it.ext = encodeToken it'.id it'.ext) :
    it.id = it'.id := by
  obtain ⟨⟨hq1, -, -⟩, hext1, -, hbr1⟩ := h
  obtain ⟨⟨hq2, -, -⟩, hext2, -, hbr2⟩ := h'
  by_cases ha : 1 < (wsTokens it.id).length <;>
    by_cases hb : 1 < (wsTokens it'.id).length
  · rw [encodeToken_pos _ _ ha, encodeToken_pos _ _ hb,
      List.cons_append, List.cons_append] at he
    injection he with _ h2
    exact (append_cons_inj '"' it.id it'.id it.ext it'.ext
      hq1 hq2 h2).1
  · exfalso
    rw [encodeToken_pos _ _ ha, encodeToken_neg _ _ hb,
      List.cons_append] at he
    have hmem : '"' ∈ '"' :: (it.id ++ '"' :: it.ext) :=
      List.mem_cons_self _ _
    rw [he] at hmem
    rcases List.mem_append.mp hmem with h1 | h1
    · exact hq2 h1
    · exact (hext2 '"' h1).2 rfl
  · exfalso
    rw [encodeToken_neg _ _ ha, encodeToken_pos _ _ hb,
      List.cons_append] at he
    have hmem : '"' ∈ '"' :: (it'.id ++ '"' :: it'.ext) :=
      List.mem_cons_self _ _
    rw [← he] at hmem
    rcases List.mem_append.mp hmem with h1 | h1
    · exact hq1 h1
    · exact (hext1 '"' h1).2 rfl
  · rw [encodeToken_neg _ _ ha, encodeToken_neg _ _ hb] at he
    rw [if_neg ha] at hbr1
    rw [if_neg hb] at hbr2
    have e1 := hbr1.2.2
    have e2 := hbr2.2.2
    rw [he, e2] at e1
    injection e1 with e3 _
    exact e3.symm

theorem tokens_nodup (n : Nat) (items : List EncItem)
    (hok : ∀ it ∈ items, encItemOk n it)
    (hnd : (items.map EncItem.id).Nodup) :
    (items.map (fun it => encodeToken it.id it.ext)).Nodup := by
  have h1 : items.Pairwise (fun a b => a.id ≠ b.id) :=
    List.pairwise_map.mp hnd
  have h2 : items.Pairwise (fun a b =>
      encodeToken a.id a.ext ≠ encodeToken b.id b.ext) :=
    h1.imp_of_mem (fun {a b} hma hmb hne he =>
      hne (encodeToken_inj n a b (hok a hma) (hok b hmb) he))
  exact List.pairwise_map.mpr h2

theorem foldl_emit_flatten :
    ∀ (l : List (List Char × List Int)) (acc : List Char),
      l.foldl (fun acc p => acc ++ emitLine p.1 p.2) acc =
        acc ++ (l.map (fun p => emitLine p.1 p.2)).flatten :=
  fun l acc => foldl_append_flatten (fun p => emitLine p.1 p.2) l acc

theorem encodeItems_flatten (n : Nat) (items : List EncItem)
    (hok : ∀ it ∈ items, encItemOk n it)
    (hnd : (items.map EncItem.id).Nodup) :
    encodeItems items = (items.map lineFor).flatten := by
  unfold encodeItems
  rw [foldl_insert_fresh (fun it => encodeToken it.id it.ext)
    (fun it => pySetList it.labels) items []
    (tokens_nodup n items hok hnd)
    (fun q hq => absurd hq (List.not_mem_nil q))]
  simp only [List.nil_append]
  rw [foldl_emit_flatten]
  simp only [List.nil_append, List.map_map]
  rfl

theorem loadItems_map (n : Nat) (dir : List Char) :
    ∀ (items : List EncItem) (acc : List (List Char × ItemRec)),
      (∀ it ∈ items, encItemOk n it) →
      loadItemsFrom n dir acc (items.map lineFor) =
        Except.ok (items.foldl (fun m it => insertOrdered m it.id
          (⟨it.id, ospJoin dir (it.id ++ it.ext),
            pySetList it.labels⟩ : ItemRec)) acc) := by
  intro items
  induction items with
  | nil => intro acc _; rfl
  | cons it rest ih =>
    intro acc hok
    simp only [List.map_cons, loadItemsFrom, List.foldl_cons,
      decodeLine_lineFor n it (hok it (by simp))]
    exact ih _ (fun u hu => hok u (by simp [hu]))

/-! ## Claim C1 -/

/-- C1, counterexample to the claim as stated: the one-item collection
with id `a b` (no double quote anywhere), resolved extension empty and
label set `{0}` does not round-trip: its line `"a b" 0` decodes with
image filename `a b0` (the label token is swallowed into the filename)
and with no labels at all. -/
theorem claim_C1_counterexample :
    ('"' ∉ ("a b".data)) ∧
    decodeFile 1 [] (encodeItems [⟨"a b".data, [], [0]⟩]) =
      Except.ok [("a b".data,
        ⟨"a b".data, "a b0".data, []⟩)] ∧
    (([] : List Int).toFinset ≠ ([0] : List Int).toFinset) :=
  ⟨by decide, by decide, by decide⟩

/-- C1 (amended): for every ordered item collection (distinct ids) in
which each item satisfies the encoding side conditions — id free of
double quotes and of newline and carriage-return characters; resolved
extension free of whitespace and double quotes; every label id within
the catalog bound; and either the id whitespace-splits into several
tokens and the extension is nonempty (the quoted case), or the id
contains no whitespace at all, the filename token is nonempty and
`os.path.splitext` cuts that token back into id and extension (the
unquoted case) — encoding the collection and then decoding the produced
annotation file yields the same ids in the same iteration order, each
with image filename id ++ extension (joined onto the image directory)
and with the label ids deduplicated to their first occurrences, hence
the same label id set. -/
theorem claim_C1_amended (n : Nat) (dir : List Char)
    (items : List EncItem)
    (hok : ∀ it ∈ items, encItemOk n it)
    (hnd : (items.map EncItem.id).Nodup) :
    decodeFile n dir (encodeItems items) =
      Except.ok (items.map (fun it =>
        (it.id, (⟨it.id, ospJoin dir (it.id ++ it.ext),
          pySetList it.labels⟩ : ItemRec)))) ∧
    ∀ it ∈ items,
      (pySetList it.labels).toFinset = it.labels.toFinset := by
  constructor
  · rw [encodeItems_flatten n items hok hnd]
    unfold decodeFile readLines loadItems
    have hnocr : '\r' ∉ (items.map lineFor).flatten := by
      intro hc
      rcases List.mem_flatten.mp hc with ⟨ch, hch, hcin⟩
      rcases List.mem_map.mp hch with ⟨it, hit, rfl⟩
      rw [lineFor_eq] at hcin
      rcases List.mem_append.mp hcin with h1 | h1
      · exact (bodyFor_chars n it (hok it hit) '\r' h1).2 rfl
      · rcases List.mem_singleton.mp h1 with e
        cases e
    rw [translateNewlines_of_no_cr _ hnocr]
    have hmapbody : items.map lineFor =
        (items.map bodyFor).map (fun b => b ++ ['\n']) := by
      rw [List.map_map]
      exact List.map_congr_left (fun it _ => lineFor_eq it)
    have hbody : ∀ b ∈ items.map bodyFor, '\n' ∉ b := by
      intro b hb
      rcases List.mem_map.mp hb with ⟨it, hit, rfl⟩
      intro hc
      exact (bodyFor_chars n it (hok it hit) '\n' hc).1 rfl
    rw [hmapbody, pyLines_flatten (items.map bodyFor) hbody,
      ← hmapbody, loadItems_map n dir items [] hok,
      foldl_insert_fresh EncItem.id
        (fun it => (⟨it.id, ospJoin dir (it.id ++ it.ext),
          pySetList it.labels⟩ : ItemRec)) items [] hnd
        (fun q hq => absurd hq (List.not_mem_nil q))]
    simp
  · intro it _
    exact toFinset_dedupFirst it.labels

/-- C1, witness: a two-item collection with a space-carrying id and a
plain id, duplicate labels on the first item, round-trips through the
amended claim. -/
theorem claim_C1_witness :
    decodeFile 2 ("images".data) (encodeItems
      [⟨"cat 1".data, ".jpg".data, [0, 1, 0]⟩,
       ⟨"dog".data, ".png".data, [1]⟩]) =
      Except.ok
        (([⟨"cat 1".data, ".jpg".data, [0, 1, 0]⟩,
          ⟨"dog".data, ".png".data, [1]⟩] : List EncItem).map (fun it =>
          (it.id, (⟨it.id, ospJoin ("images".data)
            (it.id ++ it.ext), pySetList it.labels⟩ : ItemRec)))) ∧
    ∀ it ∈ ([⟨"cat 1".data, ".jpg".data, [0, 1, 0]⟩,
        ⟨"dog".data, ".png".data, [1]⟩] : List EncItem),
      (pySetList it.labels).toFinset = it.labels.toFinset :=
  claim_C1_amended 2 ("images".data)
    [⟨"cat 1".data, ".jpg".data, [0, 1, 0]⟩,
     ⟨"dog".data, ".png".data, [1]⟩]
    (by decide) (by decide)

/-! ## Claim C2 -/

/-- C2, counterexample to the claim as stated: for the line
`".profile 0"` the decoder keeps the item id `.profile` (the
`os.path.splitext` stem), while "the token with its final extension
(last '.' segment) stripped" would be the empty string. -/
theorem claim_C2_counterexample :
    decodeLine 1 (".profile 0\n".data) =
      Except.ok (".profile".data, ".profile".data, [0]) ∧
    stripLastDotSegment (".profile".data) = [] ∧
    (".profile".data) ≠ ([] : List Char) :=
  ⟨by decide, by decide, by decide⟩

/-- C2 (amended): decoding follows the quote-count dispatch; with no
quote character the line is whitespace-split, the first token is the
image filename, the item id is the token's `os.path.splitext` stem (the
token up to its last '.', except that nothing is stripped when every
character between the last '/' and that dot is itself a '.'), and the
remaining tokens parse as integer label ids; with exactly two quote
characters (a 3-piece split) piece 1 is taken verbatim as the item id,
the image filename is the item id concatenated directly with the first
whitespace token of piece 2, and the remaining tokens of piece 2 parse
as integer label ids. -/
theorem claim_C2_amended (n : Nat) (line : List Char) :
    (∀ (t0 : List Char) (rest : List (List Char)) (ls : List Int),
      line.countP (fun c => c = '"') = 0 →
      wsTokens line = t0 :: rest → traverseInt rest = Except.ok ls →
      (∀ l ∈ ls, 0 ≤ l ∧ l < (n : Int)) →
      decodeLine n line = Except.ok ((splitext t0).1, t0, ls)) ∧
    (∀ (p0 p1 p2 t0 : List Char) (rest : List (List Char))
        (ls : List Int),
      splitQuote line = [p0, p1, p2] →
      wsTokens p2 = t0 :: rest → traverseInt rest = Except.ok ls →
      (∀ l ∈ ls, 0 ≤ l ∧ l < (n : Int)) →
      decodeLine n line = Except.ok (p1, p1 ++ t0, ls)) := by
  constructor
  · intro t0 rest ls hq hw ht hl
    have hraw : decodeRaw line = Except.ok ((splitext t0).1, t0, ls) := by
      rw [decodeRaw_noQuote line hq]
      exact decodeUnquoted_ok line t0 rest ls hw ht
    exact decodeLine_ok n line _ t0 ls hraw hl
  · intro p0 p1 p2 t0 rest ls hp hw ht hl
    have hraw : decodeRaw line = Except.ok (p1, p1 ++ t0, ls) := by
      rw [decodeRaw_three line p0 p1 p2 hp]
      exact decodeQuoted_ok p1 p2 t0 rest ls hw ht
    exact decodeLine_ok n line p1 (p1 ++ t0) ls hraw hl

/-- C2, witness: both branches of the amended claim applied to concrete
lines. -/
theorem claim_C2_witness :
    decodeLine 4 ("cat_0001.jpg 0 3\n".data) =
      Except.ok ((splitext ("cat_0001.jpg".data)).1,
        "cat_0001.jpg".data, [0, 3]) ∧
    decodeLine 2 ("\"my cat\".jpg 0 1\n".data) =
      Except.ok ("my cat".data, "my cat".data ++ ".jpg".data, [0, 1]) :=
  ⟨(claim_C2_amended 4 ("cat_0001.jpg 0 3\n".data)).1
      ("cat_0001.jpg".data) ["0".data, "3".data] [0, 3]
      (by decide) (by decide) (by decide) (by decide),
    (claim_C2_amended 2 ("\"my cat\".jpg 0 1\n".data)).2
      "".data ("my cat".data) (".jpg 0 1\n".data) (".jpg".data)
      ["0".data, "1".data] [0, 1]
      (by decide) (by decide) (by decide) (by decide)⟩

/-! ## Claim C3 -/

/-- C3, counterexample to the claim as stated: the line `a"b` contains
exactly one double-quote character — a count the claim places in the
no-error set `{1,3}` — yet the decoder raises the MalformedLine error. -/
theorem claim_C3_counterexample :
    ("a\"b\n".data).countP (fun c => c = '"') = 1 ∧
    decodeLine 1 ("a\"b\n".data) =
      Except.error (DecodeError.malformedLine ("a\"b\n".data)) :=
  ⟨by decide, by decide⟩

/-- C3 (amended): decoding a line raises the MalformedLine error,
reporting the offending line verbatim, exactly when the number of pieces
of the quote split is not in `{1,3}`, i.e. when the number of
double-quote characters in the line is not in `{0,2}`; for quote counts
in `{0,2}` MalformedLine is never raised, with any payload. -/
theorem claim_C3_amended (n : Nat) (line : List Char) :
    ((∃ l', decodeLine n line =
        Except.error (DecodeError.malformedLine l')) ↔
      ¬(line.countP (fun c => c = '"') = 0 ∨
        line.countP (fun c => c = '"') = 2)) ∧
    (∀ l', decodeLine n line =
        Except.error (DecodeError.malformedLine l') → l' = line) := by
  constructor
  · constructor
    · rintro ⟨l', hl'⟩ hq
      exact decodeLine_no_malformed n line hq l' hl'
    · intro hq
      exact ⟨line,
        decodeLine_of_raw_error n line _ (decodeRaw_malformed line hq)⟩
  · intro l' h
    by_cases hq : line.countP (fun c => c = '"') = 0 ∨
        line.countP (fun c => c = '"') = 2
    · exact absurd h (decodeLine_no_malformed n line hq l')
    · have := decodeLine_of_raw_error n line _ (decodeRaw_malformed line hq)
      rw [this] at h
      cases h
      rfl

/-! ## Claim C4 -/

/-- C4: every line containing exactly one, or four or more, double-quote
characters fails with the MalformedLine error carrying the offending
line; it is never parsed into an item. -/
theorem claim_C4 (n : Nat) (line : List Char)
    (h : line.countP (fun c => c = '"') = 1 ∨
      4 ≤ line.countP (fun c => c = '"')) :
    decodeLine n line = Except.error (DecodeError.malformedLine line) :=
  decodeLine_of_raw_error n line _ (decodeRaw_malformed line (by omega))

/-- C4, witness: a one-quote line and a four-quote line both fail. -/
theorem claim_C4_witness :
    ("a\"b 0\n".data).countP (fun c => c = '"') = 1 ∧
    decodeLine 1 ("a\"b 0\n".data) =
      Except.error (DecodeError.malformedLine ("a\"b 0\n".data)) ∧
    decodeLine 1 ("\"a\"\"b\" 0\n".data) =
      Except.error (DecodeError.malformedLine ("\"a\"\"b\" 0\n".data)) :=
  ⟨by decide, claim_C4 1 ("a\"b 0\n".data) (Or.inl (by decide)),
    claim_C4 1 ("\"a\"\"b\" 0\n".data) (Or.inr (by decide))⟩

/-! ## Claim C5 -/

/-- C5: for a line whose raw decode succeeds, the label-range asserts
accept it exactly when every parsed label id satisfies
`0 <= id < catalog size`, and any violation is the fatal InvalidLabelId
error naming the item id and an offending id. -/
theorem claim_C5 (n : Nat) (line id img : List Char) (ls : List Int)
    (h : decodeRaw line = Except.ok (id, img, ls)) :
    ((∀ l ∈ ls, 0 ≤ l ∧ l < (n : Int)) ↔
      decodeLine n line = Except.ok (id, img, ls)) ∧
    (∀ l ∈ ls, ¬(0 ≤ l ∧ l < (n : Int)) →
      ∃ b ∈ ls, ¬(0 ≤ b ∧ b < (n : Int)) ∧
        decodeLine n line =
          Except.error (DecodeError.invalidLabelId id b)) := by
  constructor
  · constructor
    · exact decodeLine_ok n line id img ls h
    · intro hd
      by_contra hb
      push_neg at hb
      rcases hb with ⟨l, hl, hbad⟩
      rcases checkLabels_bad n id ls
          ⟨l, hl, fun hc => absurd hc.2 (not_lt.mpr (hbad hc.1))⟩
        with ⟨b, hbmem, hbbad, heq⟩
      unfold decodeLine at hd
      simp only [h, heq] at hd
      cases hd
  · intro l hl hbad
    rcases checkLabels_bad n id ls ⟨l, hl, hbad⟩
      with ⟨b, hbmem, hbbad, heq⟩
    refine ⟨b, hbmem, hbbad, ?_⟩
    unfold decodeLine
    simp only [h, heq]

/-- C5, witness: label id 5 against a catalog of size 3 is rejected with
InvalidLabelId naming the item and the id, and labels 0 and 2 against
the same catalog are accepted. -/
theorem claim_C5_witness :
    (∃ b ∈ ([0, 5] : List Int), ¬(0 ≤ b ∧ b < (3 : Int)) ∧
      decodeLine 3 ("img.jpg 0 5\n".data) =
        Except.error (DecodeError.invalidLabelId ("img".data) b)) ∧
    decodeLine 3 ("img.jpg 0 2\n".data) =
      Except.ok ("img".data, "img.jpg".data, [0, 2]) :=
  ⟨(claim_C5 3 ("img.jpg 0 5\n".data) ("img".data) ("img.jpg".data)
      [0, 5] (by decide)).2 5 (by decide) (by decide),
    (claim_C5 3 ("img.jpg 0 2\n".data) ("img".data) ("img.jpg".data)
      [0, 2] (by decide)).1.mp (by decide)⟩

/-! ## Claim C6 -/

/-- C6: folding decoded records into the item dictionary preserves
first-insertion position under overwrite — the key list of the folded
dictionary is the first-occurrence deduplication of the decoded key
sequence and each key holds the value of its last occurrence — and
decoding lines for ids `a`, `b`, `a` yields iteration order `[a, b]`
with `a` holding the record of the last line. -/
theorem claim_C6 :
    (∀ ps : List (List Char × ItemRec),
      (fromPairs ps).map Prod.fst = dedupFirst (ps.map Prod.fst) ∧
      ∀ k, lookupOrd k (fromPairs ps) = lastVal k ps) ∧
    loadItems 2 []
        ["a.x 0\n".data, "b.x 0\n".data, "a.x 1\n".data] =
      Except.ok
        [("a".data, ⟨"a".data, "a.x".data, [1]⟩),
         ("b".data, ⟨"b".data, "b.x".data, [0]⟩)] :=
  ⟨fun ps => ⟨keys_fromPairs ps, fun k => lookup_fromPairs ps k⟩,
    by decide⟩

/-! ## Claim C7 -/

/-- C7, counterexample to the claim as stated: the id `a ` (trailing
space) contains a whitespace character, yet the encoder does not wrap it
in quotes, because its whitespace split has only one token. -/
theorem claim_C7_counterexample :
    (∃ c ∈ ("a ".data), pyIsSpace c = true) ∧
    encodeToken ("a ".data) (".jpg".data) = ("a .jpg".data) ∧
    '"' ∉ ("a .jpg".data) :=
  ⟨⟨' ', by decide, by decide⟩, by decide, by decide⟩

/-- C7 (amended): the encoder wraps the item id in double quotes if and
only if the id's whitespace split yields more than one token (i.e. the
id has at least two whitespace-separated words — ids whose whitespace is
only leading or trailing are left unquoted), and then appends the
resolved extension directly, with no separator, to the (possibly
quoted) id. -/
theorem claim_C7_amended (id ext : List Char) :
    (1 < (wsTokens id).length →
      encodeToken id ext = '"' :: id ++ '"' :: ext) ∧
    (¬1 < (wsTokens id).length → encodeToken id ext = id ++ ext) := by
  constructor
  · intro h
    unfold encodeToken
    rw [if_pos h]
    simp
  · intro h
    unfold encodeToken
    rw [if_neg h]

/-- C7, witness: a two-word id is quoted, a one-word id is not. -/
theorem claim_C7_witness :
    encodeToken ("a b".data) (".jpg".data) =
      '"' :: "a b".data ++ '"' :: ".jpg".data ∧
    encodeToken ("ab".data) (".jpg".data) = "ab".data ++ ".jpg".data :=
  ⟨(claim_C7_amended ("a b".data) (".jpg".data)).1 (by decide),
    (claim_C7_amended ("ab".data) (".jpg".data)).2 (by decide)⟩

/-! ## Claim C8 -/

/-- C8, counterexample to the claim as stated: the name `a\nb` carries
no surrounding whitespace (it is strip-invariant), yet storing and
reloading the one-name catalog yields the two names `a`, `b`. -/
theorem claim_C8_counterexample :
    pyStrip ("a\nb".data) = ("a\nb".data) ∧
    parseLabels (storeLabels [("a\nb".data)]) =
      [("a".data), ("b".data)] ∧
    [("a".data), ("b".data)] ≠ [("a\nb".data)] :=
  ⟨by decide, by decide, by decide⟩

/-- C8 (amended): the label catalog round-trips positionally for every
catalog whose names carry no surrounding whitespace and contain no
newline and no carriage return (the store writes one name per `'\n'`
line and the loader reads in universal-newline text mode, so an embedded
newline or carriage return splits a name in two). -/
theorem claim_C8_amended (names : List (List Char))
    (h : ∀ nm ∈ names, pyStrip nm = nm ∧ '\n' ∉ nm ∧ '\r' ∉ nm) :
    parseLabels (storeLabels names) = names := by
  rw [storeLabels_flatten]
  unfold parseLabels readLines
  have hnocr : '\r' ∉ (names.map (fun nm => nm ++ ['\n'])).flatten := by
    intro hc
    rcases List.mem_flatten.mp hc with ⟨ch, hch, hcin⟩
    rcases List.mem_map.mp hch with ⟨nm, hnm, rfl⟩
    rcases List.mem_append.mp hcin with h1 | h1
    · exact (h nm hnm).2.2 h1
    · simp at h1
  rw [translateNewlines_of_no_cr _ hnocr,
    pyLines_flatten names (fun nm hnm => (h nm hnm).2.1),
    List.map_map]
  have hmap : names.map (pyStrip ∘ fun nm => nm ++ ['\n']) =
      names.map id :=
    List.map_congr_left
      (fun nm hnm => pyStrip_append_nl nm (h nm hnm).1)
  rw [hmap, List.map_id]

/-- C8, witness: the two-name catalog `cat`, `dog` round-trips. -/
theorem claim_C8_witness :
    parseLabels (storeLabels ["cat".data, "dog".data]) =
      ["cat".data, "dog".data] :=
  claim_C8_amended ["cat".data, "dog".data] (by decide)

/-! ## Claim C9 -/

/-- C9: a file whose text merely ends with a line terminator decodes
fully, but an actually blank trailing line aborts the decode with the
IndexError from `item[0]` on the empty token list — an error that is
none of the defined error kinds — contradicting the claim that the
blank line is harmlessly rejected or skipped. -/
theorem claim_C9_bug :
    decodeFile 1 [] ("a.x 0\n".data) =
      Except.ok [("a".data, ⟨"a".data, "a.x".data, [0]⟩)] ∧
    decodeFile 1 [] ("a.x 0\n\n".data) =
      Except.error DecodeError.indexError ∧
    (∀ l, DecodeError.indexError ≠ DecodeError.malformedLine l) ∧
    (∀ id b, DecodeError.indexError ≠
      DecodeError.invalidLabelId id b) ∧
    (∀ t, DecodeError.indexError ≠ DecodeError.malformedInteger t) :=
  ⟨by decide, by decide, fun l h => DecodeError.noConfusion h,
    fun id b h => DecodeError.noConfusion h,
    fun t h => DecodeError.noConfusion h⟩

/-! ## Claim C10 -/

/-- C10: in the exactly-two-quote case, the text before the first quote
is discarded entirely: two lines sharing everything from the first quote
on decode identically, whatever their prefixes. -/
theorem claim_C10 (n : Nat) (a b tail : List Char)
    (ha : '"' ∉ a) (hb : '"' ∉ b)
    (htail : tail.countP (fun c => c = '"') = 1) :
    decodeLine n (a ++ '"' :: tail) = decodeLine n (b ++ '"' :: tail) := by
  have hlen := splitQuote_length tail
  rw [htail] at hlen
  rcases hp : splitQuote tail with _ | ⟨q1, t⟩
  · exact absurd hp (splitP_ne_nil _ tail)
  rcases t with _ | ⟨q2, t2⟩
  · rw [hp] at hlen
    simp only [List.length_cons, List.length_nil] at hlen
    omega
  rcases t2 with _ | ⟨q3, t3⟩
  swap
  · rw [hp] at hlen
    simp only [List.length_cons] at hlen
    omega
  have hsa : splitQuote (a ++ '"' :: tail) = [a, q1, q2] := by
    unfold splitQuote
    rw [splitP_append_sep _ a '"' tail
      (fun d hd => decide_eq_false
        (fun (e : d = '"') => ha (e ▸ hd))) (by decide)]
    rw [show splitP (fun c => c = '"') tail = splitQuote tail from rfl, hp]
  have hsb : splitQuote (b ++ '"' :: tail) = [b, q1, q2] := by
    unfold splitQuote
    rw [splitP_append_sep _ b '"' tail
      (fun d hd => decide_eq_false
        (fun (e : d = '"') => hb (e ▸ hd))) (by decide)]
    rw [show splitP (fun c => c = '"') tail = splitQuote tail from rfl, hp]
  unfold decodeLine
  rw [decodeRaw_three _ a q1 q2 hsa, decodeRaw_three _ b q1 q2 hsb]

/-- C10, witness: prefixes `XX` and `Y` before the quoted id make no
difference. -/
theorem claim_C10_witness :
    decodeLine 1 ("XX\"my id\".jpg 0\n".data) =
      decodeLine 1 ("Y\"my id\".jpg 0\n".data) ∧
    decodeLine 1 ("XX\"my id\".jpg 0\n".data) =
      Except.ok ("my id".data, "my id.jpg".data, [0]) :=
  ⟨claim_C10 1 ("XX".data) ("Y".data) ("my id\".jpg 0\n".data)
      (by decide) (by decide) (by decide),
    by decide⟩

end ImagenetTxt

section Sanity
open ImagenetTxt
example : splitQuote ("a\"b\"c".data) = ["a".data, "b".data, "c".data] := by decide
example : wsTokens ("  a  b \n".data) = ["a".data, "b".data] := by decide
example : pyLines ("a\nb\n".data) = ["a\n".data, "b\n".data] := by decide
example : pyLines ("a\nb".data) = ["a\n".data, "b".data] := by decide
example : pyLines ("".data) = [] := by decide
example : readLines ("a\rb\n".data) = ["a\n".data, "b\n".data] := by decide
example : splitext ("a.b.jpg".data) = ("a.b".data, ".jpg".data) := by decide
example : splitext (".profile".data) = (".profile".data, "".data) := by decide
example : splitext ("..a".data) = ("..a".data, "".data) := by decide
example : splitext ("a.b/c".data) = ("a.b/c".data, "".data) := by decide
example : splitext ("a/.jpg".data) = ("a/.jpg".data, "".data) := by decide
example : splitext ("a..jpg".data) = ("a.".data, ".jpg".data) := by decide
example : ospJoin ("d".data) ("f.jpg".data) = "d/f.jpg".data := by decide
example : ospJoin [] ("f.jpg".data) = "f.jpg".data := by decide
example : pyStrip (" a b \n".data) = "a b".data := by decide
example : pyInt ("-12".data) = some (-12) := by decide
example : pyInt ("+0".data) = some 0 := by decide
example : pyInt ("1a".data) = none := by decide
example : pyInt ("".data) = none := by decide
example : intToChars 120 = "120".data := by decide
example : intToChars (-5) = "-5".data := by decide
example : dedupFirst [3, 1, 3, 2, 1] = [3, 1, 2] := by decide
example : decodeLine 4 ("cat_0001.jpg 0 3\n".data) =
    Except.ok ("cat_0001".data, "cat_0001.jpg".data, [0, 3]) := by decide
example : decodeLine 2 ("\"my cat\".jpg 0 1\n".data) =
    Except.ok ("my cat".data, "my cat.jpg".data, [0, 1]) := by decide
example : decodeLine 2 ("a\"b\n".data) =
    Except.error (DecodeError.malformedLine ("a\"b\n".data)) := by decide
example : decodeLine 1 ("img.jpg 1\n".data) =
    Except.error (DecodeError.invalidLabelId ("img".data) 1) := by decide
example : decodeLine 1 ("img.jpg x\n".data) =
    Except.error (DecodeError.malformedInteger ("x".data)) := by decide
example : decodeLine 1 ("\n".data) =
    Except.error DecodeError.indexError := by decide
-- the literal scenario of spec section 8
example :
    decodeFile 2 ("images".data)
      ("img001.jpg 0\n\"two words\".png 1 0\nimg001.jpg 1\n".data) =
    Except.ok
      [("img001".data,
        ⟨"img001".data, "images/img001.jpg".data, [1]⟩),
       ("two words".data,
        ⟨"two words".data, "images/two words.png".data, [1, 0]⟩)] := by
  decide
example :
    encodeItems [⟨"img001".data, ".jpg".data, [0, 1, 0]⟩,
      ⟨"two words".data, ".png".data, [1]⟩] =
    ("img001.jpg 0 1\n\"two words\".png 1\n".data) := by decide
example : parseLabels (storeLabels ["cat".data, "dog".data]) =
    ["cat".data, "dog".data] := by decide
end Sanity
